import Mathlib

/-!
Verification of `nbodykit/distributedarray.py`.

The source program is a distributed-array layer: each MPI rank holds one
contiguous local chunk of a conceptually concatenated global array.  We model
a run of the program over the whole group as a pure computation on
`chunks : List (List ℕ)`, the list of local chunks in rank order.  The MPI
`allgather` of a per-rank scalar becomes a `List.map` over `chunks`, and the
`EmptyRank` sentinel becomes `Option.none` (a Python `==` comparison between
`EmptyRank` and an array element is always `False`, which the `Option`
pattern matches reproduce).
-/

namespace DistArr

/-- Embedding of `LinearTopology.heads`: the all-gathered list holding, for
every rank in order, `some` of that rank's first local item, or `none`
(`EmptyRank`) for an empty rank. -/
def headsG {α : Type} (chunks : List (List α)) : List (Option α) :=
  chunks.map List.head?

/-- Embedding of `LinearTopology.tails`: the all-gathered list of last local
items, `none` for empty ranks. -/
def tailsG {α : Type} (chunks : List (List α)) : List (Option α) :=
  chunks.map List.getLast?

/-- Embedding of the fill loop shared by `LinearTopology.prev` and
`LinearTopology.next`: walk the gathered per-rank values in increasing rank
order, replacing an `EmptyRank` slot by the most recent non-empty value seen
(`oldtail` / `oldhead` in the source). -/
def fillFwd {α : Type} (acc : Option α) : List (Option α) → List (Option α)
  | [] => []
  | none :: ts => acc :: fillFwd acc ts
  | some v :: ts => some v :: fillFwd (some v) ts

/-- Embedding of `LinearTopology.prev`: the source prepends `EmptyRank` to the
fill-forward of the gathered tails and reads slot `comm.rank`. -/
def prevT {α : Type} (chunks : List (List α)) (r : ℕ) : Option α :=
  (none :: fillFwd none (tailsG chunks)).getD r none

/-- Embedding of `LinearTopology.next`: the source appends `EmptyRank` to the
fill-forward of the gathered heads and reads slot `comm.rank + 1`. -/
def nextT {α : Type} (chunks : List (List α)) (r : ℕ) : Option α :=
  (fillFwd none (headsG chunks) ++ [none]).getD (r + 1) none

/-- Modelled from the spec's words for `prev()`: the last item of the nearest
non-empty rank with a strictly smaller index, `EmptyRank` when every rank
with a smaller index is empty.  Used to compare the source's fill loop
against the specified semantics. -/
def prevSpec {α : Type} (chunks : List (List α)) (r : ℕ) : Option α :=
  (((chunks.take r).reverse).find? (fun c => ! c.isEmpty)).bind List.getLast?

/-- Modelled from the spec's words for `next()`: the first item of the nearest
non-empty rank with a strictly larger index, `EmptyRank` when every rank with
a larger index is empty. -/
def nextSpec {α : Type} (chunks : List (List α)) (r : ℕ) : Option α :=
  ((chunks.drop (r + 1)).find? (fun c => ! c.isEmpty)).bind List.head?

/-- The value carried by the fill loop after consuming a whole prefix:
the most recent non-`none` entry, or the initial accumulator. -/
def lastSomeD {α : Type} (acc : Option α) : List (Option α) → Option α
  | [] => acc
  | none :: ts => lastSomeD acc ts
  | some v :: ts => lastSomeD (some v) ts

theorem fillFwd_getD {α : Type} :
    ∀ (ts : List (Option α)) (acc : Option α) (j : ℕ), j < ts.length →
      (fillFwd acc ts).getD j none = lastSomeD acc (ts.take (j + 1))
  | [], _, j, h => absurd h (by simp)
  | none :: ts, acc, 0, _ => by simp [fillFwd, lastSomeD]
  | some v :: ts, acc, 0, _ => by simp [fillFwd, lastSomeD]
  | none :: ts, acc, j + 1, h => by
      simpa [fillFwd, lastSomeD] using
        fillFwd_getD ts acc j (by simpa using Nat.lt_of_succ_lt_succ h)
  | some v :: ts, acc, j + 1, h => by
      simpa [fillFwd, lastSomeD] using
        fillFwd_getD ts (some v) j (by simpa using Nat.lt_of_succ_lt_succ h)

theorem lastSomeD_eq_find {α : Type} :
    ∀ (l : List (Option α)) (acc : Option α),
      lastSomeD acc l = (l.reverse.find? Option.isSome).getD acc
  | [], acc => rfl
  | none :: ts, acc => by
      rw [lastSomeD, lastSomeD_eq_find ts acc]
      simp [List.find?_append]
  | some v :: ts, acc => by
      rw [lastSomeD, lastSomeD_eq_find ts (some v)]
      simp [List.find?_append]
      cases ts.reverse.find? Option.isSome <;> simp

theorem fillFwd_length {α : Type} :
    ∀ (acc : Option α) (ts : List (Option α)), (fillFwd acc ts).length = ts.length
  | _, [] => rfl
  | acc, none :: ts => by simp [fillFwd, fillFwd_length acc ts]
  | _, some v :: ts => by simp [fillFwd, fillFwd_length (some v) ts]

theorem getLast?_isSome_eq_not_isEmpty {α : Type} (c : List α) :
    (c.getLast?).isSome = ! c.isEmpty := by
  cases c with
  | nil => rfl
  | cons a t => simp [List.getLast?_isSome]

/-- The source's `prev` equals the carried fill value over the first `r`
gathered tails. -/
theorem prevT_eq_lastSomeD {α : Type} (chunks : List (List α)) (r : ℕ)
    (h : r ≤ chunks.length) :
    prevT chunks r = lastSomeD none ((tailsG chunks).take r) := by
  cases r with
  | zero => simp [prevT, lastSomeD]
  | succ j =>
      have hj : j < (tailsG chunks).length := by
        simpa [tailsG] using Nat.lt_of_succ_le h
      simpa [prevT] using fillFwd_getD (tailsG chunks) none j hj

theorem prevT_eq_prevSpec {α : Type} (chunks : List (List α)) (r : ℕ)
    (h : r ≤ chunks.length) : prevT chunks r = prevSpec chunks r := by
  rw [prevT_eq_lastSomeD chunks r h, lastSomeD_eq_find]
  rw [tailsG, ← List.map_take, ← List.map_reverse, List.find?_map]
  have hp : (Option.isSome ∘ (List.getLast? : List α → Option α)) =
      fun c => ! c.isEmpty := by
    funext c; exact getLast?_isSome_eq_not_isEmpty c
  rw [hp, prevSpec]
  cases (chunks.take r).reverse.find? (fun c => ! c.isEmpty) <;> simp

theorem getD_append_singleton {α : Type} :
    ∀ (l : List α) (x d : α), (l ++ [x]).getD l.length d = x
  | [], x, d => rfl
  | a :: t, x, d => by simp [getD_append_singleton t x d]

/-- In a single-rank group `next()` reads the appended `EmptyRank` slot. -/
theorem nextT_single {α : Type} (chunks : List (List α)) (h : chunks.length = 1) :
    nextT chunks 0 = none := by
  have hl : (fillFwd none (headsG chunks)).length = 1 := by
    simpa [fillFwd_length, headsG] using h
  have := getD_append_singleton (fillFwd none (headsG chunks)) (none : Option α) none
  rw [hl] at this
  simpa [nextT] using this

theorem prevSpec_eq_none_iff {α : Type} (chunks : List (List α)) (r : ℕ) :
    prevSpec chunks r = none ↔ ∀ i, i < r → chunks.getD i [] = [] := by
  constructor
  · intro h i hir
    by_cases hlen : i < chunks.length
    · rw [prevSpec] at h
      have hfind : ((chunks.take r).reverse).find? (fun c => ! c.isEmpty) = none := by
        cases hf : ((chunks.take r).reverse).find? (fun c => ! c.isEmpty) with
        | none => rfl
        | some c =>
            rw [hf] at h
            have hne := List.find?_some hf
            have hcne : c ≠ [] := by simpa using hne
            cases hcc : c.getLast? with
            | none => exact absurd (List.getLast?_eq_none_iff.mp hcc) hcne
            | some v => rw [Option.some_bind, hcc] at h; simp at h
      have hall := List.find?_eq_none.mp hfind
      have hmem : chunks.getD i [] ∈ (chunks.take r).reverse := by
        rw [List.mem_reverse]
        have : chunks.getD i [] = (chunks.take r).getD i [] := by
          rw [List.getD_eq_getElem?_getD, List.getD_eq_getElem?_getD,
            List.getElem?_take_of_lt hir]
        rw [this, List.getD_eq_getElem?_getD]
        have hlt : i < (chunks.take r).length := by
          simp [List.length_take]; omega
        rw [List.getElem?_eq_getElem hlt]
        exact List.getElem_mem hlt
      have := hall _ hmem
      simpa using this
    · rw [List.getD_eq_getElem?_getD, List.getElem?_eq_none (by omega)]
      rfl
  · intro h
    rw [prevSpec]
    have hfind : ((chunks.take r).reverse).find? (fun c => ! c.isEmpty) = none := by
      rw [List.find?_eq_none]
      intro c hc
      rw [List.mem_reverse] at hc
      obtain ⟨i, hi, hgc⟩ := List.mem_iff_getElem.mp hc
      have hir : i < r := by
        have := hi; simp [List.length_take] at this; omega
      have hilen : i < chunks.length := by
        have := hi; simp [List.length_take] at this; omega
      have : c = chunks.getD i [] := by
        rw [List.getD_eq_getElem?_getD, List.getElem?_eq_getElem hilen]
        rw [← hgc, List.getElem_take]
        simp
      rw [this, h i hir]
      simp
    rw [hfind]
    rfl

theorem prevT_eq_none_iff {α : Type} (chunks : List (List α)) (r : ℕ)
    (h : r ≤ chunks.length) :
    prevT chunks r = none ↔ ∀ i, i < r → chunks.getD i [] = [] := by
  rw [prevT_eq_prevSpec chunks r h]
  exact prevSpec_eq_none_iff chunks r

theorem prevT_ne_none {α : Type} (chunks : List (List α)) (r q : ℕ)
    (hq : q < r) (h : r ≤ chunks.length) (hne : chunks.getD q [] ≠ []) :
    prevT chunks r ≠ none := by
  intro hnone
  exact hne ((prevT_eq_none_iff chunks r h).mp hnone q hq)

/-- Maximum of a list of naturals, the value determining the length of a
`numpy.bincount` result (`max + 1`). -/
def maxOf (xs : List ℕ) : ℕ := xs.foldr max 0

/-- Embedding of `numpy.bincount`: for a non-empty list of naturals, the dense
count array indexed `0 .. max`, where slot `i` holds the number of
occurrences of `i`; the empty list gives the empty array. -/
def npBincount (xs : List ℕ) : List ℕ :=
  if xs.isEmpty then [] else (List.range (maxOf xs + 1)).map (fun i => xs.count i)

/-- Embedding of the sorted distinct values returned by
`numpy.unique(local)` (`junk` in the source): sort, then drop duplicates. -/
def npUniqueVals (xs : List ℕ) : List ℕ :=
  (List.insertionSort (fun a b => a ≤ b) xs).dedup

/-- Embedding of the inverse mapping returned by
`numpy.unique(local, return_inverse=True)` (`label` in the source): for each
element, the index of its value in the distinct-value array. -/
def npUniqueInv (xs : List ℕ) : List ℕ :=
  xs.map (fun x => (npUniqueVals xs).indexOf x)

/-- Embedding of the `offset` computation in `DistributedArray.bincount`:
`offset = prev`; then, if the local chunk is non-empty and its first element
differs from `prev`, `offset = local[0]`; when `prev` is `EmptyRank`,
`offset = 0`. -/
def offsetOf (chunks : List (List ℕ)) (r : ℕ) : ℕ :=
  match prevT chunks r with
  | none => 0
  | some p =>
      match (chunks.getD r []).head? with
      | none => p
      | some h => if p ≠ h then h else p

/-- Embedding of the per-rank count array `N = numpy.bincount(local - offset)`
computed before the boundary fix-up. -/
def localN (chunks : List (List ℕ)) (r : ℕ) : List ℕ :=
  npBincount ((chunks.getD r []).map (fun x => x - offsetOf chunks r))

/-- Add `x` into the last slot of a list (the effect of `N[-1] += x`). -/
def addToLast (x : ℕ) : List ℕ → List ℕ
  | [] => []
  | [a] => [a + x]
  | a :: b :: t => a :: addToLast x (b :: t)

/-- Embedding of the gathered `tailsN = distN.topology.tails()`: for every
rank in order, `some` of the last entry of that rank's count array before any
fix-up, `none` for ranks whose count array is empty. -/
def tailsN (chunks : List (List ℕ)) : List (Option ℕ) :=
  (List.range chunks.length).map (fun i => (localN chunks i).getLast?)

/-- Embedding of the gathered `headsN = distN.topology.heads()`. -/
def headsN (chunks : List (List ℕ)) : List (Option ℕ) :=
  (List.range chunks.length).map (fun i => (localN chunks i).head?)

/-- Embedding of the global branch of `DistributedArray.bincount`: the local
count array `N`, then — when it is non-empty — the two fix-up loops.  The
first loop walks ranks `rank-1 .. 0` and executes
`N[0] += tailsN[i]` for every rank whose gathered tail value equals this
rank's first element; the second walks ranks `rank+1 .. size-1` and executes
`N[-1] += headsN[i]` for every rank whose gathered head value equals this
rank's last element.  There is no early exit in either loop. -/
def bincountG (chunks : List (List ℕ)) (r : ℕ) : List ℕ :=
  if (localN chunks r).isEmpty then localN chunks r
  else
    (List.range' (r + 1) (chunks.length - (r + 1))).foldl
      (fun acc i =>
        if (headsG chunks).getD i none = some ((chunks.getD r []).getLastD 0) then
          addToLast (((headsN chunks).getD i none).getD 0) acc
        else acc)
      (((List.range r).reverse).foldl
        (fun acc i =>
          if (tailsG chunks).getD i none = some ((chunks.getD r []).headD 0) then
            acc.modifyHead (fun x => x + ((tailsN chunks).getD i none).getD 0)
          else acc)
        (localN chunks r))

/-- Total count spilled into this rank's first bucket by the backward fix-up
loop: for every smaller-index rank whose gathered tail value equals this
rank's first element, that rank's gathered tail count. -/
def spillPrev (chunks : List (List ℕ)) (r : ℕ) : ℕ :=
  ((List.range r).map
    (fun i =>
      if (tailsG chunks).getD i none = some ((chunks.getD r []).headD 0) then
        ((localN chunks i).getLast?).getD 0
      else 0)).sum

/-- Total count spilled into this rank's last bucket by the forward fix-up
loop: for every larger-index rank whose gathered head value equals this
rank's last element, that rank's gathered head count. -/
def spillNext (chunks : List (List ℕ)) (r : ℕ) : ℕ :=
  ((List.range' (r + 1) (chunks.length - (r + 1))).map
    (fun i =>
      if (headsG chunks).getD i none = some ((chunks.getD r []).getLastD 0) then
        ((localN chunks i).head?).getD 0
      else 0)).sum

/-- Embedding of the `Nunique` computed by `DistributedArray.unique_labels`
on rank `r`: `0` for an empty chunk; otherwise the local distinct count,
decremented when `next` equals the last local element.  `EmptyRank` (`none`)
never equals an element, reproducing the Python `EmptyRank == item` being
`False`. -/
def nuniqueOf (chunks : List (List ℕ)) (r : ℕ) : ℕ :=
  let c := chunks.getD r []
  if c.isEmpty then 0
  else
    match nextT chunks r with
    | some v =>
        if v = c.getLastD 0 then (npUniqueVals c).length - 1
        else (npUniqueVals c).length
    | none => (npUniqueVals c).length

/-- Embedding of `DistributedArray.unique_labels` on rank `r`: the local
inverse labels shifted by the sum of the gathered `Nunique` of all
smaller-index ranks (`label += sum(allgather(Nunique)[:rank])`). -/
def uniqueLabels (chunks : List (List ℕ)) (r : ℕ) : List ℕ :=
  (npUniqueInv (chunks.getD r [])).map
    (fun l => l + ((List.range r).map (fun i => nuniqueOf chunks i)).sum)

/-- Number of `comm.allgather` calls performed by `LinearTopology.tails`
(one). -/
def tailsAllgatherCount : ℕ := 1

/-- Number of `comm.allgather` calls performed by `LinearTopology.heads`
(one). -/
def headsAllgatherCount : ℕ := 1

/-- Number of `comm.allgather` calls performed by `LinearTopology.prev`: it
calls `self.tails()` once and performs no other collective. -/
def prevAllgatherCount : ℕ := tailsAllgatherCount

/-- Number of `comm.allgather` calls performed by `DistributedArray.bincount`:
the method starts with `prev = self.topology.prev()` unconditionally; the
global branch additionally gathers `heads()` and `tails()` of the value array
and of the count array. -/
def bincountAllgatherCount (isLocal : Bool) : ℕ :=
  prevAllgatherCount +
    if isLocal then 0
    else headsAllgatherCount + tailsAllgatherCount +
      headsAllgatherCount + tailsAllgatherCount

/-- State-passing form of `unique_labels`: the result array paired with the
chunks after the call.  Every statement of the source method writes to fresh
arrays (`numpy.unique` allocates `junk` and `label`; `label += ...` updates
`label` in place), so the chunk list passes through unchanged. -/
def uniqueLabelsSt (chunks : List (List ℕ)) (r : ℕ) :
    List ℕ × List (List ℕ) :=
  (uniqueLabels chunks r, chunks)

/-- State-passing form of the global `bincount`: the result array paired with
the chunks after the call.  `N = numpy.bincount(self.local - offset)`
allocates a fresh array and both fix-up loops mutate only `N`, so the chunk
list passes through unchanged. -/
def bincountSt (chunks : List (List ℕ)) (r : ℕ) :
    List ℕ × List (List ℕ) :=
  (bincountG chunks r, chunks)

theorem modifyHead_modifyHead' {l : List ℕ} {f g : ℕ → ℕ} :
    (l.modifyHead g).modifyHead f = l.modifyHead (fun x => f (g x)) := by
  cases l <;> simp

theorem modifyHead_add_zero (l : List ℕ) :
    l.modifyHead (fun x => x + 0) = l := by
  cases l <;> simp

/-- The backward fix-up loop accumulates, into the head slot, the sum of the
matching contributions, independently of the traversal order. -/
theorem foldl_modifyHead_add (P : ℕ → Prop) [DecidablePred P] (c : ℕ → ℕ) :
    ∀ (idx : List ℕ) (N : List ℕ),
      idx.foldl (fun acc i =>
        if P i then acc.modifyHead (fun x => x + c i) else acc) N
      = N.modifyHead (fun x => x + (idx.map (fun i => if P i then c i else 0)).sum)
  | [], N => by
      simp only [List.foldl_nil, List.map_nil, List.sum_nil]
      rw [modifyHead_add_zero]
  | i :: idx, N => by
      rw [List.foldl_cons, List.map_cons, List.sum_cons]
      by_cases hp : P i
      · rw [if_pos hp, if_pos hp, foldl_modifyHead_add P c idx,
          modifyHead_modifyHead']
        congr 1
        funext x
        omega
      · rw [if_neg hp, if_neg hp, foldl_modifyHead_add P c idx, Nat.zero_add]

theorem addToLast_cons_shape (x b : ℕ) (t : List ℕ) :
    ∃ z zs, addToLast x (b :: t) = z :: zs := by
  cases t with
  | nil => exact ⟨b + x, [], rfl⟩
  | cons c t' => exact ⟨b, addToLast x (c :: t'), rfl⟩

theorem addToLast_addToLast (x y : ℕ) :
    ∀ l : List ℕ, addToLast x (addToLast y l) = addToLast (y + x) l
  | [] => rfl
  | [a] => by simp [addToLast, Nat.add_assoc]
  | a :: b :: t => by
      obtain ⟨z, zs, hz⟩ := addToLast_cons_shape y b t
      calc addToLast x (addToLast y (a :: b :: t))
          = addToLast x (a :: addToLast y (b :: t)) := rfl
        _ = addToLast x (a :: z :: zs) := by rw [hz]
        _ = a :: addToLast x (z :: zs) := rfl
        _ = a :: addToLast x (addToLast y (b :: t)) := by rw [hz]
        _ = a :: addToLast (y + x) (b :: t) := by
              rw [addToLast_addToLast x y (b :: t)]
        _ = addToLast (y + x) (a :: b :: t) := rfl

theorem addToLast_zero : ∀ l : List ℕ, addToLast 0 l = l
  | [] => rfl
  | [a] => rfl
  | a :: b :: t => by simp only [addToLast]; rw [addToLast_zero (b :: t)]

/-- The forward fix-up loop accumulates, into the last slot, the sum of the
matching contributions. -/
theorem foldl_addToLast_add (P : ℕ → Prop) [DecidablePred P] (c : ℕ → ℕ) :
    ∀ (idx : List ℕ) (N : List ℕ),
      idx.foldl (fun acc i => if P i then addToLast (c i) acc else acc) N
      = addToLast ((idx.map (fun i => if P i then c i else 0)).sum) N
  | [], N => by simp [addToLast_zero]
  | i :: idx, N => by
      rw [List.foldl_cons, List.map_cons, List.sum_cons]
      by_cases hp : P i
      · rw [if_pos hp, if_pos hp, foldl_addToLast_add P c idx,
          addToLast_addToLast]
      · rw [if_neg hp, if_neg hp, foldl_addToLast_add P c idx, Nat.zero_add]

/-- Structural form of the global `bincount` fix-up: when the local count
array is non-empty, the result is the local count array with the full
backward spill added to its first slot and the full forward spill added to
its last slot — every matching rank contributes, with no early stop. -/
theorem tailsN_getD (chunks : List (List ℕ)) (i : ℕ) :
    (tailsN chunks).getD i none = (localN chunks i).getLast? := by
  by_cases h : i < chunks.length
  · rw [tailsN, List.getD_eq_getElem?_getD, List.getElem?_map,
      List.getElem?_range h]
    rfl
  · rw [tailsN, List.getD_eq_getElem?_getD, List.getElem?_eq_none (by simpa using h)]
    have : chunks.getD i [] = [] := by
      rw [List.getD_eq_getElem?_getD, List.getElem?_eq_none (by omega)]
      rfl
    rw [localN, this]
    rfl

theorem headsN_getD (chunks : List (List ℕ)) (i : ℕ) :
    (headsN chunks).getD i none = (localN chunks i).head? := by
  by_cases h : i < chunks.length
  · rw [headsN, List.getD_eq_getElem?_getD, List.getElem?_map,
      List.getElem?_range h]
    rfl
  · rw [headsN, List.getD_eq_getElem?_getD, List.getElem?_eq_none (by simpa using h)]
    have : chunks.getD i [] = [] := by
      rw [List.getD_eq_getElem?_getD, List.getElem?_eq_none (by omega)]
      rfl
    rw [localN, this]
    rfl

/-- Structural form of the global `bincount` fix-up: when the local count
array is non-empty, the result is the local count array with the full
backward spill added into its first slot and the full forward spill added
into its last slot — every matching rank contributes, with no early stop in
either loop. -/
theorem bincountG_eq_spill (chunks : List (List ℕ)) (r : ℕ)
    (h : localN chunks r ≠ []) :
    bincountG chunks r =
      addToLast (spillNext chunks r)
        ((localN chunks r).modifyHead (fun x => x + spillPrev chunks r)) := by
  have hemp : (localN chunks r).isEmpty = false := by
    simpa [List.isEmpty_iff] using h
  rw [bincountG, hemp]
  simp only [Bool.false_eq_true, if_false]
  rw [foldl_modifyHead_add
    (fun i => (tailsG chunks).getD i none = some ((chunks.getD r []).headD 0))
    (fun i => ((tailsN chunks).getD i none).getD 0)]
  rw [foldl_addToLast_add
    (fun i => (headsG chunks).getD i none = some ((chunks.getD r []).getLastD 0))
    (fun i => ((headsN chunks).getD i none).getD 0)]
  simp only [tailsN_getD, headsN_getD]
  rw [spillNext, spillPrev]
  congr 2
  rw [List.map_reverse, List.sum_reverse]

theorem le_maxOf : ∀ (xs : List ℕ), ∀ x ∈ xs, x ≤ maxOf xs
  | [], x, hx => absurd hx (List.not_mem_nil x)
  | a :: t, x, hx => by
      rw [show maxOf (a :: t) = max a (maxOf t) from rfl]
      rcases List.mem_cons.mp hx with h | h
      · exact h ▸ Nat.le_max_left a (maxOf t)
      · exact Nat.le_trans (le_maxOf t x h) (Nat.le_max_right a (maxOf t))

theorem maxOf_cons (a : ℕ) (t : List ℕ) : maxOf (a :: t) = max a (maxOf t) := rfl

theorem maxOf_mem : ∀ (xs : List ℕ), xs ≠ [] → maxOf xs ∈ xs ∨ maxOf xs = 0
  | [], h => absurd rfl h
  | a :: t, _ => by
      rw [maxOf_cons]
      rcases Nat.le_total a (maxOf t) with h | h
      · rw [Nat.max_eq_right h]
        cases t with
        | nil => right; rfl
        | cons b t' =>
            rcases maxOf_mem (b :: t') (by simp) with hm | hm
            · exact Or.inl (List.mem_cons_of_mem a hm)
            · exact Or.inr hm
      · rw [Nat.max_eq_left h]
        exact Or.inl (List.mem_cons_self a t)

theorem sorted_le_getLastD (c : List ℕ) (hc : c ≠ [])
    (hs : List.Sorted (· ≤ ·) c) : ∀ x ∈ c, x ≤ c.getLastD 0 := by
  intro x hx
  have hlast : c.getLast hc ∈ c := List.getLast_mem hc
  have : c.getLastD 0 = c.getLast hc := by
    rw [List.getLastD_eq_getLast?, List.getLast?_eq_getLast c hc]
    rfl
  rw [this]
  rcases List.mem_iff_getElem.mp hx with ⟨i, hi, hgi⟩
  have hlen : 0 < c.length := List.length_pos.mpr hc
  rw [List.getLast_eq_getElem]
  rcases Nat.lt_or_ge i (c.length - 1) with hlt | hge
  · have := List.pairwise_iff_getElem.mp hs i (c.length - 1) hi (by omega) hlt
    omega
  · have : i = c.length - 1 := by omega
    subst this
    omega

theorem maxOf_sorted (c : List ℕ) (hc : c ≠ [])
    (hs : List.Sorted (· ≤ ·) c) : maxOf c = c.getLastD 0 := by
  have hle : maxOf c ≤ c.getLastD 0 := by
    rcases maxOf_mem c hc with hm | hm
    · exact sorted_le_getLastD c hc hs _ hm
    · omega
  have hge : c.getLastD 0 ≤ maxOf c := by
    apply le_maxOf
    rw [List.getLastD_eq_getLast?, List.getLast?_eq_getLast c hc]
    exact List.getLast_mem hc
  omega

theorem maxOf_map_sub (o : ℕ) :
    ∀ (c : List ℕ), maxOf (c.map (fun x => x - o)) = maxOf c - o
  | [] => by simp [maxOf]
  | a :: t => by
      rw [List.map_cons, maxOf_cons, maxOf_cons, maxOf_map_sub o t,
        Nat.sub_max_sub_right]

theorem npBincount_length (xs : List ℕ) (h : xs ≠ []) :
    (npBincount xs).length = maxOf xs + 1 := by
  rw [npBincount, if_neg (by simpa [List.isEmpty_iff] using h)]
  simp

theorem range_map_getD (n j : ℕ) (f : ℕ → ℕ) (h : j < n) :
    ((List.range n).map f).getD j 0 = f j := by
  rw [List.getD_eq_getElem?_getD, List.getElem?_map, List.getElem?_range h]
  rfl

theorem npBincount_getD (xs : List ℕ) (h : xs ≠ []) (j : ℕ)
    (hj : j ≤ maxOf xs) : (npBincount xs).getD j 0 = xs.count j := by
  rw [npBincount, if_neg (by simpa [List.isEmpty_iff] using h)]
  exact range_map_getD (maxOf xs + 1) j _ (by omega)

theorem count_map_sub (c : List ℕ) (o j : ℕ) (hmin : ∀ x ∈ c, o ≤ x) :
    (c.map (fun x => x - o)).count j = c.count (o + j) := by
  rw [List.count, List.count, List.countP_map]
  apply List.countP_congr
  intro x hx
  have hox : o ≤ x := hmin x hx
  simp only [Function.comp_apply, beq_iff_eq]
  constructor
  · intro hxo
    have : x = j + o := (Nat.sub_eq_iff_eq_add hox).mp hxo
    omega
  · intro hxo
    omega

theorem sorted_headD_le (c : List ℕ) (hs : List.Sorted (· ≤ ·) c) :
    ∀ x ∈ c, c.headD 0 ≤ x := by
  cases c with
  | nil => intro x hx; exact absurd hx (List.not_mem_nil x)
  | cons a t =>
      intro x hx
      rw [List.headD_cons]
      rcases List.mem_cons.mp hx with h | h
      · omega
      · exact List.rel_of_sorted_cons hs x h

theorem headD_mem (c : List ℕ) (hc : c ≠ []) (d : ℕ) : c.headD d ∈ c := by
  cases c with
  | nil => exact absurd rfl hc
  | cons a t => rw [List.headD_cons]; exact List.mem_cons_self a t

theorem getLastD_mem (c : List ℕ) (hc : c ≠ []) (d : ℕ) : c.getLastD d ∈ c := by
  rw [List.getLastD_eq_getLast?, List.getLast?_eq_getLast c hc]
  exact List.getLast_mem hc

theorem head?_eq_headD (c : List ℕ) (hc : c ≠ []) :
    c.head? = some (c.headD 0) := by
  cases c with
  | nil => exact absurd rfl hc
  | cons a t => rfl

theorem offsetOf_of_prev_none (chunks : List (List ℕ)) (r : ℕ)
    (h : prevT chunks r = none) : offsetOf chunks r = 0 := by
  rw [offsetOf, h]

theorem offsetOf_of_prev_some (chunks : List (List ℕ)) (r : ℕ) (p : ℕ)
    (h : prevT chunks r = some p) (hc : chunks.getD r [] ≠ []) :
    offsetOf chunks r = (chunks.getD r []).headD 0 := by
  cases hcc : chunks.getD r [] with
  | nil => exact absurd hcc hc
  | cons a t =>
      rw [offsetOf, h, hcc]
      show (if p ≠ a then a else p) = a
      by_cases hp : p ≠ a
      · rw [if_pos hp]
      · rw [if_neg hp]
        omega

theorem offsetOf_le (chunks : List (List ℕ)) (r : ℕ)
    (hs : List.Sorted (· ≤ ·) (chunks.getD r [])) :
    ∀ x ∈ chunks.getD r [], offsetOf chunks r ≤ x := by
  intro x hx
  have hc : chunks.getD r [] ≠ [] := by
    intro hnil; rw [hnil] at hx; exact absurd hx (List.not_mem_nil x)
  cases hp : prevT chunks r with
  | none => rw [offsetOf_of_prev_none chunks r hp]; omega
  | some p =>
      rw [offsetOf_of_prev_some chunks r p hp hc]
      exact sorted_headD_le _ hs x hx

theorem localN_nil (chunks : List (List ℕ)) (r : ℕ)
    (hc : chunks.getD r [] = []) : localN chunks r = [] := by
  rw [localN, hc]
  rfl

theorem localN_ne_nil (chunks : List (List ℕ)) (r : ℕ)
    (hc : chunks.getD r [] ≠ []) : localN chunks r ≠ [] := by
  rw [localN]
  intro hnil
  have : ((chunks.getD r []).map (fun x => x - offsetOf chunks r)) ≠ [] := by
    simpa using hc
  have hlen := npBincount_length _ this
  rw [hnil] at hlen
  simp at hlen

theorem localN_length (chunks : List (List ℕ)) (r : ℕ)
    (hc : chunks.getD r [] ≠ []) (hs : List.Sorted (· ≤ ·) (chunks.getD r [])) :
    (localN chunks r).length =
      (chunks.getD r []).getLastD 0 - offsetOf chunks r + 1 := by
  rw [localN, npBincount_length _ (by simpa using hc), maxOf_map_sub,
    maxOf_sorted _ hc hs]

theorem localN_getD (chunks : List (List ℕ)) (r : ℕ)
    (hc : chunks.getD r [] ≠ []) (hs : List.Sorted (· ≤ ·) (chunks.getD r []))
    (j : ℕ) (hj : j ≤ (chunks.getD r []).getLastD 0 - offsetOf chunks r) :
    (localN chunks r).getD j 0 =
      (chunks.getD r []).count (offsetOf chunks r + j) := by
  rw [localN, npBincount_getD _ (by simpa using hc) j
    (by rw [maxOf_map_sub, maxOf_sorted _ hc hs]; omega)]
  exact count_map_sub _ _ j (offsetOf_le chunks r hs)

theorem head?_eq_getD (l : List ℕ) (hl : l ≠ []) :
    l.head? = some (l.getD 0 0) := by
  cases l with
  | nil => exact absurd rfl hl
  | cons a t => rfl

theorem getLast?_eq_getD (l : List ℕ) (hl : l ≠ []) :
    l.getLast? = some (l.getD (l.length - 1) 0) := by
  rw [List.getLast?_eq_getElem?, List.getD_eq_getElem?_getD]
  have hlen : 0 < l.length := List.length_pos.mpr hl
  rw [List.getElem?_eq_getElem (by omega)]
  rfl

/-- The first entry of a rank's pre-fix-up count array is the local count of
its offset value. -/
theorem localN_head? (chunks : List (List ℕ)) (r : ℕ)
    (hc : chunks.getD r [] ≠ []) (hs : List.Sorted (· ≤ ·) (chunks.getD r [])) :
    (localN chunks r).head? =
      some ((chunks.getD r []).count (offsetOf chunks r)) := by
  rw [head?_eq_getD _ (localN_ne_nil chunks r hc),
    localN_getD chunks r hc hs 0 (by omega)]
  simp

/-- The last entry of a rank's pre-fix-up count array is the local count of
its maximal (= last) value. -/
theorem localN_getLast? (chunks : List (List ℕ)) (r : ℕ)
    (hc : chunks.getD r [] ≠ []) (hs : List.Sorted (· ≤ ·) (chunks.getD r [])) :
    (localN chunks r).getLast? =
      some ((chunks.getD r []).count ((chunks.getD r []).getLastD 0)) := by
  have ho : offsetOf chunks r ≤ (chunks.getD r []).getLastD 0 :=
    offsetOf_le chunks r hs _ (getLastD_mem _ hc 0)
  rw [getLast?_eq_getD _ (localN_ne_nil chunks r hc),
    localN_length chunks r hc hs]
  have : (chunks.getD r []).getLastD 0 - offsetOf chunks r + 1 - 1 =
      (chunks.getD r []).getLastD 0 - offsetOf chunks r := by omega
  rw [this, localN_getD chunks r hc hs _ (by omega)]
  congr 2
  omega

theorem sorted_chunk_of_flatten (chunks : List (List ℕ))
    (hS : List.Sorted (· ≤ ·) chunks.flatten) (i : ℕ) :
    List.Sorted (· ≤ ·) (chunks.getD i []) := by
  by_cases hi : i < chunks.length
  · have hmem : chunks.getD i [] ∈ chunks := by
      rw [List.getD_eq_getElem?_getD, List.getElem?_eq_getElem hi]
      exact List.getElem_mem hi
    exact (List.pairwise_flatten.mp hS).1 _ hmem
  · rw [List.getD_eq_getElem?_getD, List.getElem?_eq_none (by omega)]
    exact List.sorted_nil

theorem cross_le_of_flatten (chunks : List (List ℕ))
    (hS : List.Sorted (· ≤ ·) chunks.flatten) (i k : ℕ) (hik : i < k) :
    ∀ x ∈ chunks.getD i [], ∀ y ∈ chunks.getD k [], x ≤ y := by
  intro x hx y hy
  have hi : i < chunks.length := by
    by_contra hno
    rw [List.getD_eq_getElem?_getD, List.getElem?_eq_none (by omega)] at hx
    exact absurd hx (List.not_mem_nil x)
  by_cases hk : k < chunks.length
  · have hpw := (List.pairwise_flatten.mp hS).2
    have := List.pairwise_iff_getElem.mp hpw i k hi hk hik
    have hxe : x ∈ chunks[i] := by
      rw [List.getD_eq_getElem?_getD, List.getElem?_eq_getElem hi] at hx
      exact hx
    have hye : y ∈ chunks[k] := by
      rw [List.getD_eq_getElem?_getD, List.getElem?_eq_getElem hk] at hy
      exact hy
    exact this x hxe y hye
  · rw [List.getD_eq_getElem?_getD, List.getElem?_eq_none (by omega)] at hy
    exact absurd hy (List.not_mem_nil y)

theorem map_eq_range_map (f : List ℕ → ℕ) :
    ∀ L : List (List ℕ),
      L.map f = (List.range L.length).map (fun i => f (L.getD i []))
  | [] => rfl
  | c :: L => by
      rw [List.map_cons, List.length_cons, List.range_succ_eq_map,
        List.map_cons, List.map_map]
      congr 1
      rw [map_eq_range_map f L]
      apply List.map_congr_left
      intro i hi
      simp

theorem range_split (n r : ℕ) (h : r < n) :
    List.range n = List.range r ++ r :: List.range' (r + 1) (n - (r + 1)) := by
  rw [List.range_eq_range', List.range_eq_range']
  have h1 : n - (r + 1) + 1 = n - r := by omega
  have h2 : List.range' r (n - r) = r :: List.range' (r + 1) (n - (r + 1)) := by
    rw [← h1, List.range'_succ]
  rw [← h2]
  have h3 : List.range' 0 r ++ List.range' (0 + r) (n - r) = List.range' 0 (n - r + r) :=
    List.range'_append_1 0 r (n - r)
  rw [Nat.zero_add] at h3
  have h4 : n - r + r = n := by omega
  rw [h4] at h3
  exact h3.symm

/-- The global count of a value splits as the counts on the ranks before `r`,
on rank `r` itself, and on the ranks after `r`. -/
theorem count_flatten_split (chunks : List (List ℕ)) (r v : ℕ)
    (h : r < chunks.length) :
    (chunks.flatten).count v =
      ((List.range r).map (fun i => (chunks.getD i []).count v)).sum +
        (chunks.getD r []).count v +
        ((List.range' (r + 1) (chunks.length - (r + 1))).map
          (fun i => (chunks.getD i []).count v)).sum := by
  rw [List.count_flatten, map_eq_range_map (fun c => c.count v) chunks,
    range_split chunks.length r h]
  rw [List.map_append, List.sum_append, List.map_cons, List.sum_cons]
  omega

theorem lt_length_of_getD_ne_nil (chunks : List (List ℕ)) (r : ℕ)
    (hc : chunks.getD r [] ≠ []) : r < chunks.length := by
  by_contra hno
  rw [List.getD_eq_getElem?_getD, List.getElem?_eq_none (by omega)] at hc
  exact hc rfl

theorem tailsG_getD (chunks : List (List ℕ)) (i : ℕ) :
    (tailsG chunks).getD i none = (chunks.getD i []).getLast? := by
  by_cases h : i < chunks.length
  · rw [tailsG, List.getD_eq_getElem?_getD, List.getElem?_map,
      List.getElem?_eq_getElem h, List.getD_eq_getElem?_getD,
      List.getElem?_eq_getElem h]
    rfl
  · rw [tailsG, List.getD_eq_getElem?_getD,
      List.getElem?_eq_none (by simpa using h),
      List.getD_eq_getElem?_getD, List.getElem?_eq_none (by omega)]
    rfl

theorem headsG_getD (chunks : List (List ℕ)) (i : ℕ) :
    (headsG chunks).getD i none = (chunks.getD i []).head? := by
  by_cases h : i < chunks.length
  · rw [headsG, List.getD_eq_getElem?_getD, List.getElem?_map,
      List.getElem?_eq_getElem h, List.getD_eq_getElem?_getD,
      List.getElem?_eq_getElem h]
    rfl
  · rw [headsG, List.getD_eq_getElem?_getD,
      List.getElem?_eq_none (by simpa using h),
      List.getD_eq_getElem?_getD, List.getElem?_eq_none (by omega)]
    rfl

/-- The backward spill equals the total count, over all smaller-index ranks,
of this rank's offset value. -/
theorem spillPrev_eq (chunks : List (List ℕ)) (r : ℕ)
    (hS : List.Sorted (· ≤ ·) chunks.flatten)
    (hc : chunks.getD r [] ≠ []) :
    spillPrev chunks r =
      ((List.range r).map
        (fun i => (chunks.getD i []).count (offsetOf chunks r))).sum := by
  rw [spillPrev]
  congr 1
  apply List.map_congr_left
  intro i hi
  have hir : i < r := List.mem_range.mp hi
  have hrlen : r ≤ chunks.length := Nat.le_of_lt (lt_length_of_getD_ne_nil chunks r hc)
  rw [tailsG_getD]
  by_cases hie : chunks.getD i [] = []
  · rw [hie]
    simp
  · have hsi : List.Sorted (· ≤ ·) (chunks.getD i []) :=
      sorted_chunk_of_flatten chunks hS i
    cases hp : prevT chunks r with
    | none =>
        exact absurd ((prevT_eq_none_iff chunks r hrlen).mp hp i hir) hie
    | some p =>
        have ho : offsetOf chunks r = (chunks.getD r []).headD 0 :=
          offsetOf_of_prev_some chunks r p hp hc
        rw [List.getLast?_eq_getLast _ hie]
        have hlast : (chunks.getD i []).getLast hie = (chunks.getD i []).getLastD 0 := by
          rw [List.getLastD_eq_getLast?, List.getLast?_eq_getLast _ hie]
          rfl
        rw [hlast]
        by_cases heq : (chunks.getD i []).getLastD 0 = (chunks.getD r []).headD 0
        · rw [if_pos (by rw [heq]), localN_getLast? chunks i hie hsi]
          rw [Option.getD_some, heq, ho]
        · rw [if_neg (by simpa using heq), ho]
          have hcnt : (chunks.getD r []).headD 0 ∉ chunks.getD i [] := by
            intro hmem
            have h1 : (chunks.getD r []).headD 0 ≤ (chunks.getD i []).getLastD 0 :=
              sorted_le_getLastD _ hie hsi _ hmem
            have h2 : (chunks.getD i []).getLastD 0 ≤ (chunks.getD r []).headD 0 :=
              cross_le_of_flatten chunks hS i r hir _
                (getLastD_mem _ hie 0) _ (headD_mem _ hc 0)
            omega
          rw [List.count_eq_zero.mpr hcnt]

/-- The forward spill equals the total count, over all larger-index ranks, of
this rank's last value. -/
theorem spillNext_eq (chunks : List (List ℕ)) (r : ℕ)
    (hS : List.Sorted (· ≤ ·) chunks.flatten)
    (hc : chunks.getD r [] ≠ []) :
    spillNext chunks r =
      ((List.range' (r + 1) (chunks.length - (r + 1))).map
        (fun i => (chunks.getD i []).count ((chunks.getD r []).getLastD 0))).sum := by
  rw [spillNext]
  congr 1
  apply List.map_congr_left
  intro i hi
  have hri : r + 1 ≤ i ∧ i < chunks.length := by
    rcases List.mem_range'.mp hi with ⟨k, hk, hik⟩
    omega
  rw [headsG_getD]
  by_cases hie : chunks.getD i [] = []
  · rw [hie]
    simp
  · have hsi : List.Sorted (· ≤ ·) (chunks.getD i []) :=
      sorted_chunk_of_flatten chunks hS i
    rw [head?_eq_headD _ hie]
    by_cases heq : (chunks.getD i []).headD 0 = (chunks.getD r []).getLastD 0
    · rw [if_pos (by rw [heq])]
      cases hp : prevT chunks i with
      | none =>
          have := (prevT_eq_none_iff chunks i (by omega)).mp hp r (by omega)
          exact absurd this hc
      | some p =>
          have ho : offsetOf chunks i = (chunks.getD i []).headD 0 :=
            offsetOf_of_prev_some chunks i p hp hie
          rw [localN_head? chunks i hie hsi, Option.getD_some, ho, heq]
    · rw [if_neg (by simpa using heq)]
      have hcnt : (chunks.getD r []).getLastD 0 ∉ chunks.getD i [] := by
        intro hmem
        have h1 : (chunks.getD i []).headD 0 ≤ (chunks.getD r []).getLastD 0 :=
          sorted_headD_le _ hsi _ hmem
        have h2 : (chunks.getD r []).getLastD 0 ≤ (chunks.getD i []).headD 0 :=
          cross_le_of_flatten chunks hS r i (by omega) _
            (getLastD_mem _ hc 0) _ (headD_mem _ hie 0)
        omega
      rw [List.count_eq_zero.mpr hcnt]

/-- Ranks before `r` hold no occurrence of a value strictly above this rank's
offset. -/
theorem count_before_eq_zero (chunks : List (List ℕ)) (r v i : ℕ)
    (hS : List.Sorted (· ≤ ·) chunks.flatten)
    (hc : chunks.getD r [] ≠ []) (hir : i < r)
    (hv : offsetOf chunks r < v) :
    (chunks.getD i []).count v = 0 := by
  by_cases hie : chunks.getD i [] = []
  · rw [hie]; rfl
  · have hrlen : r ≤ chunks.length :=
      Nat.le_of_lt (lt_length_of_getD_ne_nil chunks r hc)
    cases hp : prevT chunks r with
    | none => exact absurd ((prevT_eq_none_iff chunks r hrlen).mp hp i hir) hie
    | some p =>
        have ho : offsetOf chunks r = (chunks.getD r []).headD 0 :=
          offsetOf_of_prev_some chunks r p hp hc
        apply List.count_eq_zero.mpr
        intro hmem
        have := cross_le_of_flatten chunks hS i r hir _ hmem _ (headD_mem _ hc 0)
        omega

/-- Ranks after `r` hold no occurrence of a value strictly below this rank's
last value. -/
theorem count_after_eq_zero (chunks : List (List ℕ)) (r v i : ℕ)
    (hS : List.Sorted (· ≤ ·) chunks.flatten)
    (hc : chunks.getD r [] ≠ []) (hri : r < i)
    (hv : v < (chunks.getD r []).getLastD 0) :
    (chunks.getD i []).count v = 0 := by
  apply List.count_eq_zero.mpr
  intro hmem
  have := cross_le_of_flatten chunks hS r i hri _ (getLastD_mem _ hc 0) _ hmem
  omega

theorem length_modifyHead' (l : List ℕ) (f : ℕ → ℕ) :
    (l.modifyHead f).length = l.length := by
  cases l <;> simp

theorem length_addToLast (x : ℕ) :
    ∀ l : List ℕ, (addToLast x l).length = l.length
  | [] => rfl
  | [a] => rfl
  | a :: b :: t => by
      rw [show addToLast x (a :: b :: t) = a :: addToLast x (b :: t) from rfl]
      rw [List.length_cons, List.length_cons, length_addToLast x (b :: t)]

theorem modifyHead_getD_zero (l : List ℕ) (f : ℕ → ℕ) (d : ℕ) (h : l ≠ []) :
    (l.modifyHead f).getD 0 d = f (l.getD 0 d) := by
  cases l with
  | nil => exact absurd rfl h
  | cons a t => simp

theorem modifyHead_getD_pos (l : List ℕ) (f : ℕ → ℕ) (d j : ℕ) (h : 0 < j) :
    (l.modifyHead f).getD j d = l.getD j d := by
  cases l with
  | nil => simp
  | cons a t =>
      cases j with
      | zero => omega
      | succ k => simp

theorem addToLast_getD_last (x d : ℕ) :
    ∀ l : List ℕ, l ≠ [] →
      (addToLast x l).getD (l.length - 1) d = l.getD (l.length - 1) d + x
  | [], h => absurd rfl h
  | [a], _ => rfl
  | a :: b :: t, _ => by
      rw [show addToLast x (a :: b :: t) = a :: addToLast x (b :: t) from rfl]
      have hlen : (a :: b :: t).length - 1 = ((b :: t).length - 1) + 1 := by
        simp
      rw [hlen, List.getD_cons_succ, List.getD_cons_succ]
      exact addToLast_getD_last x d (b :: t) (by simp)

theorem addToLast_getD_lt (x d : ℕ) :
    ∀ (l : List ℕ) (j : ℕ), j < l.length - 1 →
      (addToLast x l).getD j d = l.getD j d
  | [], j, h => by simp at h
  | [a], j, h => by simp at h
  | a :: b :: t, 0, _ => rfl
  | a :: b :: t, j + 1, h => by
      rw [show addToLast x (a :: b :: t) = a :: addToLast x (b :: t) from rfl]
      rw [List.getD_cons_succ, List.getD_cons_succ]
      exact addToLast_getD_lt x d (b :: t) j (by simp at h ⊢; omega)

/-- Per-bin correctness of the global histogram: on every rank, every slot of
the fixed-up count array holds the total number of occurrences, across the
whole distributed array, of the value that slot stands for
(`offset + slot index`). -/
theorem bincountG_getD_eq_flatten_count (chunks : List (List ℕ)) (r j : ℕ)
    (hS : List.Sorted (· ≤ ·) chunks.flatten)
    (hj : j < (bincountG chunks r).length) :
    (bincountG chunks r).getD j 0 =
      (chunks.flatten).count (offsetOf chunks r + j) := by
  have hN : localN chunks r ≠ [] := by
    intro hnil
    rw [bincountG, hnil] at hj
    simp at hj
  have hc : chunks.getD r [] ≠ [] := by
    intro hnil
    exact hN (localN_nil chunks r hnil)
  have hr : r < chunks.length := lt_length_of_getD_ne_nil chunks r hc
  have hsr : List.Sorted (· ≤ ·) (chunks.getD r []) :=
    sorted_chunk_of_flatten chunks hS r
  have ho : offsetOf chunks r ≤ (chunks.getD r []).getLastD 0 :=
    offsetOf_le chunks r hsr _ (getLastD_mem _ hc 0)
  have hlenN : (localN chunks r).length =
      (chunks.getD r []).getLastD 0 - offsetOf chunks r + 1 :=
    localN_length chunks r hc hsr
  have hlen : (bincountG chunks r).length = (localN chunks r).length := by
    rw [bincountG_eq_spill chunks r hN, length_addToLast, length_modifyHead']
  rw [hlen, hlenN] at hj
  have hjle : j ≤ (chunks.getD r []).getLastD 0 - offsetOf chunks r := by omega
  have hcount : (localN chunks r).getD j 0 =
      (chunks.getD r []).count (offsetOf chunks r + j) :=
    localN_getD chunks r hc hsr j hjle
  have hsplit := count_flatten_split chunks r (offsetOf chunks r + j) hr
  have hMlen : ((localN chunks r).modifyHead
      (fun x => x + spillPrev chunks r)).length = (localN chunks r).length :=
    length_modifyHead' _ _
  rw [bincountG_eq_spill chunks r hN]
  by_cases hj0 : j = 0
  · subst hj0
    by_cases hjlast : (localN chunks r).length - 1 = 0
    · -- single-slot count array: both spills land in the same slot
      have hval : (chunks.getD r []).getLastD 0 = offsetOf chunks r := by
        rw [hlenN] at hjlast
        omega
      rw [show (0 : ℕ) = ((localN chunks r).modifyHead
          (fun x => x + spillPrev chunks r)).length - 1 by omega]
      rw [addToLast_getD_last _ _ _ (by
        intro hnil
        apply hN
        rw [← List.length_eq_zero, ← hMlen, hnil]
        rfl)]
      rw [hMlen, show (localN chunks r).length - 1 = 0 from hjlast]
      rw [modifyHead_getD_zero _ _ _ hN, hcount]
      rw [spillPrev_eq chunks r hS hc, spillNext_eq chunks r hS hc]
      rw [hsplit, hval]
      have : offsetOf chunks r + 0 = offsetOf chunks r := by omega
      rw [this]
      omega
    · -- first slot of a longer array: only the backward spill lands here
      have hstrict : 0 < (localN chunks r).length - 1 := by omega
      rw [addToLast_getD_lt _ _ _ 0 (by omega)]
      rw [modifyHead_getD_zero _ _ _ hN, hcount]
      rw [spillPrev_eq chunks r hS hc, hsplit]
      have hB : ((List.range' (r + 1) (chunks.length - (r + 1))).map
          (fun i => (chunks.getD i []).count (offsetOf chunks r + 0))).sum = 0 := by
        apply List.sum_eq_zero
        intro y hy
        rcases List.mem_map.mp hy with ⟨i, hi, hyi⟩
        rcases List.mem_range'.mp hi with ⟨k, hk, hik⟩
        rw [← hyi]
        apply count_after_eq_zero chunks r _ i hS hc (by omega)
        rw [hlenN] at hstrict
        omega
      rw [hB]
      have h0 : offsetOf chunks r + 0 = offsetOf chunks r := by omega
      rw [h0]
      omega
  · by_cases hjlast : j = (localN chunks r).length - 1
    · -- last slot: only the forward spill lands here
      subst hjlast
      rw [show (localN chunks r).length - 1 = ((localN chunks r).modifyHead
          (fun x => x + spillPrev chunks r)).length - 1 by rw [hMlen]]
      rw [addToLast_getD_last _ _ _ (by
        intro hnil
        apply hN
        rw [← List.length_eq_zero, ← hMlen, hnil]
        rfl)]
      rw [hMlen]
      rw [modifyHead_getD_pos _ _ _ _ (by omega), hcount]
      rw [spillNext_eq chunks r hS hc, hsplit]
      have hval : offsetOf chunks r + ((localN chunks r).length - 1) =
          (chunks.getD r []).getLastD 0 := by
        rw [hlenN]
        omega
      rw [hval]
      have hA : ((List.range r).map
          (fun i => (chunks.getD i []).count ((chunks.getD r []).getLastD 0))).sum = 0 := by
        apply List.sum_eq_zero
        intro y hy
        rcases List.mem_map.mp hy with ⟨i, hi, hyi⟩
        rw [← hyi]
        apply count_before_eq_zero chunks r _ i hS hc (List.mem_range.mp hi)
        rw [hlenN] at hj0
        omega
      rw [hA]
      omega
    · -- interior slot: no spill lands here
      rw [addToLast_getD_lt _ _ _ j (by rw [hMlen]; omega)]
      rw [modifyHead_getD_pos _ _ _ _ (by omega), hcount, hsplit]
      have hA : ((List.range r).map
          (fun i => (chunks.getD i []).count (offsetOf chunks r + j))).sum = 0 := by
        apply List.sum_eq_zero
        intro y hy
        rcases List.mem_map.mp hy with ⟨i, hi, hyi⟩
        rw [← hyi]
        exact count_before_eq_zero chunks r _ i hS hc (List.mem_range.mp hi)
          (by omega)
      have hB : ((List.range' (r + 1) (chunks.length - (r + 1))).map
          (fun i => (chunks.getD i []).count (offsetOf chunks r + j))).sum = 0 := by
        apply List.sum_eq_zero
        intro y hy
        rcases List.mem_map.mp hy with ⟨i, hi, hyi⟩
        rcases List.mem_range'.mp hi with ⟨k, hk, hik⟩
        rw [← hyi]
        apply count_after_eq_zero chunks r _ i hS hc (by omega)
        rw [hlenN] at hjlast
        omega
      rw [hA, hB]
      omega

/-- Element-wise sum of a list of count arrays, aligning every array at slot
0 — the only available reading of the claim's "summing the result over all
ranks, bin by bin". -/
def addBins : List ℕ → List ℕ → List ℕ
  | [], l => l
  | l, [] => l
  | a :: as, b :: bs => (a + b) :: addBins as bs

/-- Sum of a list of count arrays under `addBins`. -/
def sumBins (ls : List (List ℕ)) : List ℕ := ls.foldr addBins []

/-- Claim C1 (code bug): the claim — and the source docstring of
`LinearTopology.next` — says `next()` returns the first item of the nearest
non-empty rank with a strictly larger index, and `EmptyRank` only when every
larger rank is empty.  The code fills the gathered heads *forward* and reads
slot `rank + 1`, so an empty following rank makes it return an earlier rank's
head: with chunks `[[5],[],[7]]` rank 0 receives its own head `5` instead of
`7`, and with `[[],[],[5]]` rank 0 receives `EmptyRank` although rank 2 is
non-empty. -/
theorem claim_C1_next_fill_bug :
    nextT [[(5 : ℕ)], [], [7]] 0 = some 5 ∧
    nextSpec [[(5 : ℕ)], [], [7]] 0 = some 7 ∧
    nextT [([] : List ℕ), [], [5]] 0 = none ∧
    nextSpec [([] : List ℕ), [], [5]] 0 = some 5 := by
  refine ⟨by decide, by decide, by decide, by decide⟩

/-- Claim C2 (code bug): on the globally sorted distribution
`[[2,2],[],[3]]` the defective `next()` of rank 0 returns rank 0's own head
`2`, which equals its last element, so rank 0 wrongly contributes a
decremented distinct count; rank 2's value `3` then receives label `0`, the
same label as the distinct value `2` — violating "same label iff equal". -/
theorem claim_C2_labels_bug :
    List.Sorted (· ≤ ·) (List.flatten [[(2 : ℕ), 2], [], [3]]) ∧
    uniqueLabels [[(2 : ℕ), 2], [], [3]] 0 = [0, 0] ∧
    uniqueLabels [[(2 : ℕ), 2], [], [3]] 2 = [0] := by
  refine ⟨by decide, by decide, by decide⟩

/-- Claim C3, counterexample: for the sorted distribution `[[0,0],[0,1]]`
(the example of the source docstring) the global `bincount()` returns `[3]`
on rank 0 and `[3,1]` on rank 1 — each rank reports the *full* count of the
boundary-spanning run — so the bin-wise sum over ranks is `[6,1]`, not the
concatenated bincount `[3,1]`: the claimed conservation fails by double
counting. -/
theorem claim_C3_sum_counterexample :
    List.Sorted (· ≤ ·) (List.flatten [[(0 : ℕ), 0], [0, 1]]) ∧
    bincountG [[(0 : ℕ), 0], [0, 1]] 0 = [3] ∧
    bincountG [[(0 : ℕ), 0], [0, 1]] 1 = [3, 1] ∧
    sumBins [bincountG [[(0 : ℕ), 0], [0, 1]] 0,
      bincountG [[(0 : ℕ), 0], [0, 1]] 1] = [6, 1] ∧
    npBincount (List.flatten [[(0 : ℕ), 0], [0, 1]]) = [3, 1] ∧
    ([6, 1] : List ℕ) ≠ [3, 1] := by
  refine ⟨by decide, by decide, by decide, by decide, by decide, by decide⟩

/-- Claim C3, amended: for every globally sorted distributed integer
sequence, every slot of every rank's global `bincount()` result equals the
true global count — over the concatenation of all chunks — of the value that
slot stands for (the rank's offset plus the slot index); each rank thus
reports full, not partial, counts, and summing the per-rank arrays over the
group double-counts every boundary-spanning value instead of reproducing the
concatenated bincount. -/
theorem claim_C3_per_rank_counts :
    ∀ (chunks : List (List ℕ)) (r j : ℕ),
      List.Sorted (· ≤ ·) chunks.flatten →
      j < (bincountG chunks r).length →
      (bincountG chunks r).getD j 0 =
        (chunks.flatten).count (offsetOf chunks r + j) :=
  fun chunks r j hS hj => bincountG_getD_eq_flatten_count chunks r j hS hj

theorem claim_C3_per_rank_counts_witness :
    List.Sorted (· ≤ ·) (List.flatten [[(5 : ℕ)], [5], [5, 6]]) ∧
    0 < (bincountG [[(5 : ℕ)], [5], [5, 6]] 1).length ∧
    (bincountG [[(5 : ℕ)], [5], [5, 6]] 1).getD 0 0 =
      (List.flatten [[(5 : ℕ)], [5], [5, 6]]).count
        (offsetOf [[(5 : ℕ)], [5], [5, 6]] 1 + 0) :=
  ⟨by decide, by decide,
    claim_C3_per_rank_counts [[(5 : ℕ)], [5], [5, 6]] 1 0 (by decide) (by decide)⟩

/-- Claim C4, counterexample: `bincount(local=True)` is not collective-free —
the method unconditionally begins with `prev = self.topology.prev()`, which
performs one `allgather` (inside `tails()`), so the number of collective
exchanges on the local path is `1`, not `0`. -/
theorem claim_C4_collective_counterexample :
    bincountAllgatherCount true = 1 ∧ bincountAllgatherCount true ≠ 0 := by
  refine ⟨rfl, by decide⟩

/-- Claim C4, amended: `bincount(local=True)` performs exactly the one
all-gather of `prev()` (for offset normalization) and skips the four
additional gathers of the global path, which performs five in total. -/
theorem claim_C4_one_gather :
    bincountAllgatherCount true = prevAllgatherCount ∧
    prevAllgatherCount = 1 ∧
    bincountAllgatherCount false = 5 :=
  ⟨rfl, rfl, rfl⟩

/-- Claim C5: for every rank whose count array is non-empty, the global
`bincount` fix-up adds, into the first slot, the tail count of *every*
smaller-index rank whose tail value matches this rank's first element, and
into the last slot the head count of every larger-index rank whose head value
matches this rank's last element — with no early termination in either scan;
in particular for `[[5],[5],[5,6]]` every rank reports the full 3-element run
of the value 5. -/
theorem claim_C5_fixup :
    (∀ (chunks : List (List ℕ)) (r : ℕ), localN chunks r ≠ [] →
      bincountG chunks r =
        addToLast (spillNext chunks r)
          ((localN chunks r).modifyHead (fun x => x + spillPrev chunks r))) ∧
    bincountG [[(5 : ℕ)], [5], [5, 6]] 0 = [0, 0, 0, 0, 0, 3] ∧
    bincountG [[(5 : ℕ)], [5], [5, 6]] 1 = [3] ∧
    bincountG [[(5 : ℕ)], [5], [5, 6]] 2 = [3, 1] :=
  ⟨fun chunks r h => bincountG_eq_spill chunks r h,
    by decide, by decide, by decide⟩

theorem claim_C5_fixup_witness :
    localN [[(5 : ℕ)], [5], [5, 6]] 1 ≠ [] ∧
    bincountG [[(5 : ℕ)], [5], [5, 6]] 1 =
      addToLast (spillNext [[(5 : ℕ)], [5], [5, 6]] 1)
        ((localN [[(5 : ℕ)], [5], [5, 6]] 1).modifyHead
          (fun x => x + spillPrev [[(5 : ℕ)], [5], [5, 6]] 1)) :=
  ⟨by decide, claim_C5_fixup.1 [[(5 : ℕ)], [5], [5, 6]] 1 (by decide)⟩

/-- Claim C6: in `bincount()` the normalization offset is `0` when `prev()`
is `EmptyRank`; otherwise it is the local first element when the local chunk
is non-empty and its first element differs from `prev()`; otherwise it is
`prev()` itself. -/
theorem claim_C6_offset :
    ∀ (chunks : List (List ℕ)) (r : ℕ),
      (prevT chunks r = none → offsetOf chunks r = 0) ∧
      (∀ p : ℕ, prevT chunks r = some p →
        (∀ h : ℕ, (chunks.getD r []).head? = some h → h ≠ p →
          offsetOf chunks r = h) ∧
        ((chunks.getD r []).head? = none → offsetOf chunks r = p) ∧
        ((chunks.getD r []).head? = some p → offsetOf chunks r = p)) := by
  intro chunks r
  refine ⟨fun hp => offsetOf_of_prev_none chunks r hp,
    fun p hp => ⟨?_, ?_, ?_⟩⟩
  · intro h hh hne
    rw [offsetOf, hp, hh]
    show (if p ≠ h then h else p) = h
    rw [if_pos (by omega)]
  · intro hh
    rw [offsetOf, hp, hh]
  · intro hh
    rw [offsetOf, hp, hh]
    show (if p ≠ p then p else p) = p
    rw [if_neg (by omega)]

theorem claim_C6_offset_witness :
    prevT [[(3 : ℕ)], [4]] 1 = some 3 ∧
    ([[(3 : ℕ)], [4]].getD 1 []).head? = some 4 ∧
    offsetOf [[(3 : ℕ)], [4]] 1 = 4 :=
  ⟨by decide, by decide,
    ((claim_C6_offset [[(3 : ℕ)], [4]] 1).2 3 (by decide)).1 4
      (by decide) (by decide)⟩

/-- Claim C7: `prev()` returns the last item of the nearest non-empty rank
with a strictly smaller index, and `EmptyRank` when every smaller-index rank
is empty (the fill-forward over gathered tails realises exactly this); in a
single-rank group both `prev()` and `next()` return `EmptyRank`. -/
theorem claim_C7_prev :
    ∀ {α : Type} (chunks : List (List α)) (r : ℕ), r < chunks.length →
      prevT chunks r = prevSpec chunks r ∧
      (chunks.length = 1 → prevT chunks r = none ∧ nextT chunks r = none) := by
  intro α chunks r hr
  refine ⟨prevT_eq_prevSpec chunks r (Nat.le_of_lt hr), fun h1 => ?_⟩
  have hr0 : r = 0 := by omega
  subst hr0
  exact ⟨rfl, nextT_single chunks h1⟩

theorem claim_C7_prev_witness :
    0 < ([[(3 : ℕ)]] : List (List ℕ)).length ∧
    prevT [[(3 : ℕ)]] 0 = prevSpec [[(3 : ℕ)]] 0 ∧
    (([[(3 : ℕ)]] : List (List ℕ)).length = 1 →
      prevT [[(3 : ℕ)]] 0 = none ∧ nextT [[(3 : ℕ)]] 0 = none) :=
  ⟨by decide, (claim_C7_prev [[(3 : ℕ)]] 0 (by decide)).1,
    (claim_C7_prev [[(3 : ℕ)]] 0 (by decide)).2⟩

/-- Claim C8, counterexample: with chunk sizes `[0,2,0,3]` — concretely
`[[],[10,11],[],[20,21,22]]` — `next()` on rank 0 returns the first item of
rank 1 (`10`), not the first item of rank 3 (`20`) as the claim states; rank
1, the nearest non-empty rank after rank 0, holds the item immediately after
rank 0's (empty) chunk. -/
theorem claim_C8_counterexample :
    nextT [([] : List ℕ), [10, 11], [], [20, 21, 22]] 0 = some 10 ∧
    nextT [([] : List ℕ), [10, 11], [], [20, 21, 22]] 0 ≠ some 20 := by
  refine ⟨by decide, by decide⟩

/-- Claim C8, amended: for a 4-rank group with chunk sizes `[0,2,0,3]`,
`prev()` on rank 2 is the last item of rank 1, `next()` on rank 0 is the
first item of rank 1 (the nearest non-empty rank after rank 0), `prev()` on
rank 0 is `EmptyRank`, and `next()` on rank 3 is `EmptyRank`. -/
theorem claim_C8_topology_example :
    ∀ a b c d e : ℕ,
      prevT [[], [a, b], [], [c, d, e]] 2 = some b ∧
      nextT [[], [a, b], [], [c, d, e]] 0 = some a ∧
      prevT [[], [a, b], [], [c, d, e]] 0 = none ∧
      nextT [[], [a, b], [], [c, d, e]] 3 = none := by
  intro a b c d e
  exact ⟨rfl, rfl, rfl, rfl⟩

/-- Claim C9: `unique_labels()` and the global `bincount()` leave the source
chunk unchanged — each returns its labels/counts as a freshly built array
while the chunk list passes through the call untouched. -/
theorem claim_C9_frame :
    ∀ (chunks : List (List ℕ)) (r : ℕ),
      (uniqueLabelsSt chunks r).2 = chunks ∧
      (bincountSt chunks r).2 = chunks ∧
      (uniqueLabelsSt chunks r).1 = uniqueLabels chunks r ∧
      (bincountSt chunks r).1 = bincountG chunks r :=
  fun _ _ => ⟨rfl, rfl, rfl, rfl⟩

/-- Claim C10: the spill-over decrement in `unique_labels` fires only when
`next()` yields an actual element equal to the last local element; the
`EmptyRank` sentinel never compares equal to an element, so a non-empty rank
whose `next()` is `EmptyRank` contributes its full local distinct count. -/
theorem claim_C10_full_count :
    ∀ (chunks : List (List ℕ)) (r : ℕ),
      chunks.getD r [] ≠ [] → nextT chunks r = none →
      nuniqueOf chunks r = (npUniqueVals (chunks.getD r [])).length := by
  intro chunks r hc hn
  simp only [nuniqueOf, hn]
  rw [show (chunks.getD r []).isEmpty = false by
    simpa [List.isEmpty_iff] using hc]
  simp

theorem claim_C10_full_count_witness :
    ([[(1 : ℕ), 2]].getD 0 [] ≠ []) ∧
    nextT [[(1 : ℕ), 2]] 0 = none ∧
    nuniqueOf [[(1 : ℕ), 2]] 0 = (npUniqueVals ([[(1 : ℕ), 2]].getD 0 [])).length :=
  ⟨by decide, by decide,
    claim_C10_full_count [[(1 : ℕ), 2]] 0 (by decide) (by decide)⟩

end DistArr
